import Mathlib

/-!
A shallow embedding, in Lean 4, of the core of the `better-convex-nuxt`
repository: the structured-value helpers (`deepEqual`, `compareJsonValues`
from `src/runtime/utils/shared-helpers.ts`), the client auth-token
coordinator (`fetchToken` from `src/runtime/plugin.client.ts` and its
variant), the subscription registry and the reactive query binding
(`src/runtime/composables/useConvexQuery.ts`).

JavaScript values flowing through these helpers are modelled by the
inductive type `JVal`: finite numbers are idealised as rationals (JS
numbers are IEEE doubles; every literal appearing in the claims is exact
in both models), `NaN` is its own constructor, and objects are lists of
(key, value) entries in insertion order.  A real JS object has pairwise
distinct keys; lists with a repeated key are non-canonical representations
and every operation reads such a list through its first occurrence of a
key, matching `Object.keys` / property access on the object the list
denotes.
-/

/-- A JavaScript/JSON value as it flows through the runtime helpers. -/
inductive JVal where
  | jnull
  | jundef
  | jbool (b : Bool)
  | jnum (q : Rat)
  | jnan
  | jstr (s : String)
  | jarr (elems : List JVal)
  | jobj (fields : List (String × JVal))
deriving Repr

open JVal

/-- JS `typeof`. -/
def typeOf : JVal → String
  | jnull => "object"
  | jundef => "undefined"
  | jbool _ => "boolean"
  | jnum _ => "number"
  | jnan => "number"
  | jstr _ => "string"
  | jarr _ => "object"
  | jobj _ => "object"

/-- JS `x == null` (true exactly for `null` and `undefined`). -/
def isNullish : JVal → Bool
  | jnull => true
  | jundef => true
  | _ => false

/-- JS truthiness of a value. -/
def jsTruthy : JVal → Bool
  | jnull => false
  | jundef => false
  | jbool b => b
  | jnum q => q != 0
  | jnan => false
  | jstr s => s != ""
  | jarr _ => true
  | jobj _ => true

/-- JS strict equality `===` on our value domain.  Primitives compare by
value (`NaN === NaN` is `false`); two composite values compare as distinct
heap references, the case the runtime helpers are actually applied to. -/
def jsStrictEq : JVal → JVal → Bool
  | jnull, jnull => true
  | jundef, jundef => true
  | jbool x, jbool y => x == y
  | jnum p, jnum q => p == q
  | jstr s, jstr t => s == t
  | _, _ => false

/-- Keys of an association list (in order, with repetitions). -/
def keysOf (l : List (String × JVal)) : List String :=
  l.map Prod.fst

/-- JS `Object.prototype.hasOwnProperty.call(o, k)`. -/
def hasKey : List (String × JVal) → String → Bool
  | [], _ => false
  | (k, _) :: rest, key => k == key || hasKey rest key

/-- JS property access `o[k]` (first occurrence wins; `undefined` when the
key is absent). -/
def oget : List (String × JVal) → String → JVal
  | [], _ => jundef
  | (k, v) :: rest, key => if k == key then v else oget rest key

/-- The entry list of the JS object a raw entry list denotes: later
occurrences of an already-seen key are unreachable and are dropped, so the
result has pairwise distinct keys, as `Object.keys` guarantees. -/
def canonFields : List (String × JVal) → List (String × JVal)
  | [] => []
  | (k, v) :: rest =>
      (k, v) :: canonFields (rest.filter (fun kv => !(kv.1 == k)))
termination_by l => l.length
decreasing_by
  simp only [List.length_cons]
  exact Nat.lt_succ_of_le (List.length_filter_le _ _)

theorem sizeOf_filter_le (p : String × JVal → Bool)
    (l : List (String × JVal)) : sizeOf (l.filter p) ≤ sizeOf l := by
  induction l with
  | nil => simp
  | cons e rest ih =>
      by_cases h : p e
      · simp only [List.filter_cons, h, if_true, List.cons.sizeOf_spec]
        omega
      · simp only [List.filter_cons, h, Bool.false_eq_true, if_false,
          List.cons.sizeOf_spec]
        omega

theorem sizeOf_canonFields_le (l : List (String × JVal)) :
    sizeOf (canonFields l) ≤ sizeOf l := by
  induction l using canonFields.induct with
  | case1 => simp [canonFields]
  | case2 k v rest ih =>
      have h := sizeOf_filter_le (fun kv => !(kv.1 == k)) rest
      simp only [canonFields, List.cons.sizeOf_spec]
      omega

theorem sizeOf_oget_le (l : List (String × JVal)) (key : String) :
    sizeOf (oget l key) ≤ sizeOf l := by
  induction l with
  | nil => simp [oget, jundef.sizeOf_spec]
  | cons e rest ih =>
      obtain ⟨k, v⟩ := e
      by_cases h : k == key
      · simp only [oget, h, if_true]
        simp only [List.cons.sizeOf_spec, Prod.mk.sizeOf_spec]
        omega
      · simp only [oget, h, if_false]
        calc sizeOf (oget rest key) ≤ sizeOf rest := ih
          _ ≤ 1 + sizeOf (k, v) + sizeOf rest := by omega

mutual

/-- `deepEqual` from `src/runtime/utils/shared-helpers.ts`: recursive
structural equality; reference/primitive equality first, then null
handling, then a `typeof` check, arrays by length and elements, objects by
key set and per-key values. -/
def deepEqual (a b : JVal) : Bool :=
  if jsStrictEq a b then true
  else if isNullish a || isNullish b then jsStrictEq a b
  else if typeOf a != typeOf b then false
  else
    match a, b with
    | jarr xs, jarr ys => (xs.length == ys.length) && deepEqualList xs ys
    | jobj fa, jobj fb =>
        let la := canonFields fa
        let lb := canonFields fb
        (la.length == lb.length) && deepEqualFields la lb
    | _, _ => false
termination_by sizeOf a + sizeOf b
decreasing_by
  · simp only [jarr.sizeOf_spec]; omega
  · have h1 := sizeOf_canonFields_le fa
    have h2 := sizeOf_canonFields_le fb
    simp only [jobj.sizeOf_spec]; omega

/-- The elementwise loop of `deepEqual` over two arrays. -/
def deepEqualList : List JVal → List JVal → Bool
  | [], [] => true
  | x :: xs, y :: ys => deepEqual x y && deepEqualList xs ys
  | _, _ => false
termination_by xs ys => sizeOf xs + sizeOf ys
decreasing_by
  · simp only [List.cons.sizeOf_spec]; omega
  · simp only [List.cons.sizeOf_spec]; omega

/-- The per-key loop of `deepEqual` over an object's entries (`la` is the
canonical entry list of `a`): each key must be an own property of `b` with
a deeply-equal value. -/
def deepEqualFields : List (String × JVal) → List (String × JVal) → Bool
  | [], _ => true
  | (k, v) :: rest, lb =>
      (hasKey lb k && deepEqual v (oget lb k)) && deepEqualFields rest lb
termination_by la lb => sizeOf la + sizeOf lb
decreasing_by
  · have h := sizeOf_oget_le lb k
    simp only [List.cons.sizeOf_spec, Prod.mk.sizeOf_spec]
    omega
  · simp only [List.cons.sizeOf_spec]; omega

end

mutual

/-- Whether no `NaN` occurs anywhere in a value. -/
def nanFree : JVal → Bool
  | jnan => false
  | jarr xs => nanFreeList xs
  | jobj fields => nanFreeFields fields
  | _ => true

/-- `nanFree` over a sequence. -/
def nanFreeList : List JVal → Bool
  | [] => true
  | x :: xs => nanFree x && nanFreeList xs

/-- `nanFree` over object entries. -/
def nanFreeFields : List (String × JVal) → Bool
  | [] => true
  | (_, v) :: rest => nanFree v && nanFreeFields rest

end

theorem one_le_sizeOf_list {α : Type} [SizeOf α] (l : List α) :
    1 ≤ sizeOf l := by
  cases l <;> simp_arith

/-- Decimal representation of a JS number.  Integral values print exactly
as JS does ("42", "-3"); for non-integral rationals we keep Lean's
num/den form, an idealisation of JS's shortest-round-trip float printing
(no claim below depends on printing a non-integral number). -/
def numToString (q : Rat) : String :=
  if q.den = 1 then toString q.num else toString q

/-- Lexicographic comparison of character lists by code point, the model
used for `String.prototype.localeCompare`; on the digit strings the claims
exercise it agrees with the ICU root collation. -/
def charListCmp : List Char → List Char → Ordering
  | [], [] => .eq
  | [], _ :: _ => .lt
  | _ :: _, [] => .gt
  | c :: cs, d :: ds =>
      if c.toNat < d.toNat then .lt
      else if d.toNat < c.toNat then .gt
      else charListCmp cs ds

/-- `a.localeCompare(b)` as a JS number: -1, 0 or 1. -/
def strCmp (s t : String) : Rat :=
  match charListCmp s.data t.data with
  | .lt => -1
  | .eq => 0
  | .gt => 1

mutual

/-- JS `String(v)` on our value domain (`numToString` for numbers; arrays
join their elements with commas, `null`/`undefined` elements printing as
empty; plain objects print "[object Object]"). -/
def jsToString : JVal → String
  | jnull => "null"
  | jundef => "undefined"
  | jbool b => if b then "true" else "false"
  | jnum q => numToString q
  | jnan => "NaN"
  | jstr s => s
  | jarr xs => jsToStringArr xs
  | jobj _ => "[object Object]"
termination_by v => sizeOf v
decreasing_by
  simp only [jarr.sizeOf_spec]; omega

/-- The comma join of `Array.prototype.toString`. -/
def jsToStringArr : List JVal → String
  | [] => ""
  | [x] => jsToStringElem x
  | x :: xs => jsToStringElem x ++ "," ++ jsToStringArr xs
termination_by xs => sizeOf xs
decreasing_by
  all_goals
    first
    | (simp only [List.cons.sizeOf_spec, List.nil.sizeOf_spec]; omega)
    | (have h1 := one_le_sizeOf_list xs
       simp only [List.cons.sizeOf_spec] at h1 ⊢; omega)

/-- One array element under `Array.prototype.join`: `null` and `undefined`
print as the empty string. -/
def jsToStringElem (v : JVal) : String :=
  match v with
  | jnull => ""
  | jundef => ""
  | w => jsToString w
termination_by sizeOf v + 1
decreasing_by
  omega

end

/-- Parse a decimal integer string the way `BigInt(string)` does (optional
sign, digits; the empty string is 0); `none` models a thrown
`SyntaxError`. -/
def parseDecInt (s : String) : Option Int :=
  let digits? (cs : List Char) : Option Nat :=
    if cs.isEmpty then none
    else cs.foldl (fun acc c =>
      match acc with
      | none => none
      | some n => if c.isDigit then some (n * 10 + (c.toNat - 48)) else none)
      (some 0)
  match s.data with
  | [] => some 0
  | '-' :: rest => (digits? rest).map (fun n => -(n : Int))
  | '+' :: rest => (digits? rest).map (fun n => (n : Int))
  | cs => (digits? cs).map (fun n => (n : Int))

/-- JS `BigInt(v)`: `none` models a throw. -/
def jsBigInt : JVal → Option Int
  | jstr s => parseDecInt s
  | jnum q => if q.den = 1 then some q.num else none
  | jnan => none
  | jbool b => some (if b then 1 else 0)
  | jnull => none
  | jundef => none
  | jarr xs => parseDecInt (jsToString (jarr xs))
  | jobj _ => none

/-- JS `'$integer' in v` (the Convex bigint envelope check of
`compareJsonValues`). -/
def hasIntegerKey : JVal → Bool
  | jobj fields => hasKey fields "$integer"
  | _ => false

/-- The `$integer` payload of a Convex bigint envelope, as `BigInt` reads
it. -/
def integerPayload : JVal → Option Int
  | jobj fields => jsBigInt (oget fields "$integer")
  | _ => none

/-- The JS number `compareJsonValues` returns: a rational value, `NaN`
(some operand of `a - b` was `NaN`), or `thrown` (a `$integer` payload
`BigInt` could not parse). -/
inductive CmpRes where
  | val (q : Rat)
  | nan
  | thrown
deriving DecidableEq, Repr

/-- Negation of a comparison outcome (`NaN` and a throw are unaffected by
swapping the operands). -/
def negRes : CmpRes → CmpRes
  | .val q => .val (-q)
  | .nan => .nan
  | .thrown => .thrown

/-- The non-array tail of `compareJsonValues` (everything after the
elementwise array branch), factored out so the recursion is confined to
arrays: null/undefined sort first, numbers by subtraction, strings by
`localeCompare`, booleans as 0/1, Convex `$integer` envelopes by `BigInt`
difference (the magnitude of `Number(aBig - bBig)` is idealised to the
exact difference, which has the same sign), anything else by the
`String(...)` fallback. -/
def compareScalar (a b : JVal) : CmpRes :=
  if isNullish a && isNullish b then .val 0
  else if isNullish a then .val (-1)
  else if isNullish b then .val 1
  else
    match a, b with
    | jnum p, jnum q => .val (p - q)
    | jnum _, jnan => .nan
    | jnan, jnum _ => .nan
    | jnan, jnan => .nan
    | jstr s, jstr t => .val (strCmp s t)
    | jbool x, jbool y =>
        .val ((if x then (1 : Rat) else 0) - (if y then (1 : Rat) else 0))
    | a1, b1 =>
        if hasIntegerKey a1 && hasIntegerKey b1 then
          match integerPayload a1, integerPayload b1 with
          | some i, some j => .val ((i - j : Int) : Rat)
          | _, _ => .thrown
        else .val (strCmp (jsToString a1) (jsToString b1))

mutual

/-- `compareJsonValues` from `src/runtime/utils/shared-helpers.ts`: two
arrays scan elementwise (multi-key sort); every other pair falls through
to the scalar tail `compareScalar`. -/
def compareJsonValues (a b : JVal) : CmpRes :=
  match a, b with
  | jarr xs, jarr ys => compareJsonList xs ys
  | _, _ => compareScalar a b
termination_by sizeOf a + sizeOf b
decreasing_by
  simp only [jarr.sizeOf_spec]; omega

/-- The index loop of `compareJsonValues` over two arrays: positions up to
the longer length, missing elements read as `undefined`; the first
comparison that is not the number 0 (including `NaN` and a throw) decides. -/
def compareJsonList : List JVal → List JVal → CmpRes
  | [], [] => .val 0
  | [], y :: ys =>
      let c := compareJsonValues jundef y
      if c = .val 0 then compareJsonList [] ys else c
  | x :: xs, [] =>
      let c := compareJsonValues x jundef
      if c = .val 0 then compareJsonList xs [] else c
  | x :: xs, y :: ys =>
      let c := compareJsonValues x y
      if c = .val 0 then compareJsonList xs ys else c
termination_by xs ys => sizeOf xs + sizeOf ys
decreasing_by
  all_goals
    simp only [List.cons.sizeOf_spec, List.nil.sizeOf_spec,
      jundef.sizeOf_spec]
  all_goals omega

end

/-- The strict "sorts before" relation `compareJsonValues` induces: the
comparison returns a negative number. -/
def cmpLt (a b : JVal) : Prop :=
  ∃ q : Rat, compareJsonValues a b = .val q ∧ q < 0

/-! ## The auth token coordinator (`fetchToken`) -/

/-- Milliseconds of token-cache freshness, `TOKEN_CACHE_MS` in
`src/runtime/plugin.client.ts`. -/
def TOKEN_CACHE_MS : Nat := 10000

/-- `DEFAULT_TOKEN_CACHE_TTL_MS` from `src/runtime/utils/types.ts`. -/
def DEFAULT_TOKEN_CACHE_TTL_MS : Nat := 10000

/-- JS truthiness of `convexToken.value` (`null` and the empty string are
falsy). -/
def tokenTruthy : Option String → Bool
  | none => false
  | some s => s != ""

/-- JS truthiness of `convexUser.value`. -/
def userTruthy : Option JVal → Bool
  | none => false
  | some v => jsTruthy v

/-- The client auth state the plugin keeps in `useState` plus the
module-level `lastTokenValidation` timestamp. -/
structure AuthState where
  token : Option String
  user : Option JVal
  lastValidation : Nat
deriving Repr

/-- The outcome of one `authClient.convex.token()` network round trip:
a response envelope (`error` flag and optional `data.token`), or a thrown
exception. -/
inductive TokenNet where
  | resp (error : Bool) (data : Option String)
  | thrown
deriving Repr, DecidableEq

/-- Whether a network outcome is a failure in `fetchToken`'s eyes:
a throw, a truthy `response.error`, or a missing/empty `response.data?.token`. -/
def netFails : TokenNet → Bool
  | .thrown => true
  | .resp error data => error || !(tokenTruthy data)

/-- What one `fetchToken` call produces: the value returned to the Convex
client, the auth state afterwards, and how many network fetches were
issued. -/
structure FetchResult where
  ret : Option String
  st : AuthState
  calls : Nat
deriving Repr

/-- `fetchToken` from `src/runtime/plugin.client.ts` (lines 111-183).
`now` stands for `Date.now()`, `net` for the one network round trip the
call may make, and `extractUser` for the best-effort JWT payload decode of
lines 153-174 (`some u` exactly when the decode succeeds and the payload
carries `sub`, `userId` or `email`). -/
def fetchToken (st : AuthState) (forceRefreshToken : Bool) (now : Nat)
    (net : TokenNet) (extractUser : String → Option JVal) : FetchResult :=
  -- Use SSR-hydrated token if available and not forcing refresh
  if tokenTruthy st.token && !forceRefreshToken then
    { ret := st.token, st := { st with lastValidation := now }, calls := 0 }
  -- If we have a token and it was recently validated/fetched, reuse it
  else if tokenTruthy st.token && forceRefreshToken
      && (now - st.lastValidation < TOKEN_CACHE_MS) then
    { ret := st.token, st := st, calls := 0 }
  else
    -- Fetch fresh token from Better Auth via authClient.convex.token()
    match net with
    | .thrown =>
        { ret := none, st := { st with token := none, user := none },
          calls := 1 }
    | .resp error data =>
        if error || !(tokenTruthy data) then
          { ret := none, st := { st with token := none, user := none },
            calls := 1 }
        else
          match data with
          | none =>
              -- unreachable: `tokenTruthy none = false` was caught above
              { ret := none, st := { st with token := none, user := none },
                calls := 1 }
          | some t =>
              let st1 := { st with token := some t, lastValidation := now }
              let st2 :=
                if userTruthy st1.user then st1
                else
                  match extractUser t with
                  | some u => { st1 with user := some u }
                  | none => st1
              { ret := some t, st := st2, calls := 1 }

/-- The `fetchToken` variant of the repository's other client-plugin
rendition (src/unnamed/part_002, lines 73-107): same hydrated-token and
token-cache branches, then an explicit "not authenticated if no SSR state"
early return, and a failure path that clears only the token (the derived
user is left untouched; the variant never populates the user either). -/
def fetchTokenVariant (st : AuthState) (forceRefreshToken : Bool) (now : Nat)
    (net : TokenNet) : FetchResult :=
  -- Use SSR-hydrated token if available
  if tokenTruthy st.token && !forceRefreshToken then
    { ret := st.token, st := { st with lastValidation := now }, calls := 0 }
  -- Use cached token if recently validated
  else if tokenTruthy st.token && forceRefreshToken
      && (now - st.lastValidation < TOKEN_CACHE_MS) then
    { ret := st.token, st := st, calls := 0 }
  -- Not authenticated if no SSR state
  else if !(tokenTruthy st.token) && !(userTruthy st.user) then
    { ret := none, st := st, calls := 0 }
  else
    -- Fetch fresh token from Better Auth
    match net with
    | .thrown =>
        { ret := none, st := { st with token := none }, calls := 1 }
    | .resp error data =>
        if error || !(tokenTruthy data) then
          { ret := none, st := { st with token := none }, calls := 1 }
        else
          match data with
          | none =>
              { ret := none, st := { st with token := none }, calls := 1 }
          | some t =>
              { ret := some t,
                st := { st with token := some t, lastValidation := now },
                calls := 1 }

/-! ## Subscription registry and cache keys

The functions below, imported by `useConvexQuery.ts` from
`utils/convex-cache`, have no implementation among the repository's source
files (only their import, call sites and the `_convexSubscriptions`
declaration in `types.d.ts` appear), so they are modelled from the spec. -/

/-- Key lookup in an association list with `Nat` teardown handles (the
`Record<string, () => void>` of `_convexSubscriptions`, teardown callbacks
named by numeric ids). -/
def alistHas : List (String × Nat) → String → Bool
  | [], _ => false
  | (k, _) :: rest, key => k == key || alistHas rest key

/-- First-occurrence lookup in the registry. -/
def alistGet : List (String × Nat) → String → Option Nat
  | [], _ => none
  | (k, t) :: rest, key => if k == key then some t else alistGet rest key

/-- Removal of a key from the registry (JS `delete o[k]`). -/
def alistRemove : List (String × Nat) → String → List (String × Nat)
  | [], _ => []
  | (k, t) :: rest, key =>
      if k == key then alistRemove rest key
      else (k, t) :: alistRemove rest key

/-- Modelled from the spec: `hasSubscription` of the absent
`utils/convex-cache` module (spec 4.4: the registry operation
`has(key) -> bool`). -/
def hasSubscription (registry : List (String × Nat)) (key : String) : Bool :=
  alistHas registry key

/-- Modelled from the spec: `registerSubscription` of the absent
`utils/convex-cache` module (spec 4.4: "stores the entry if absent; if
present, the call is a no-op (existing subscription wins)"). -/
def registerSubscription (registry : List (String × Nat)) (key : String)
    (teardown : Nat) : List (String × Nat) :=
  if alistHas registry key then registry else (key, teardown) :: registry

/-- Modelled from the spec: `cleanupSubscription` of the absent
`utils/convex-cache` module (spec 4.4: "invokes the stored teardown (if
present) and removes the entry; safe to call when absent").  Returns the
registry afterwards and the list of teardown handles invoked by this
call. -/
def cleanupSubscription (registry : List (String × Nat)) (key : String) :
    List (String × Nat) × List Nat :=
  match alistGet registry key with
  | some t => (alistRemove registry key, [t])
  | none => (registry, [])

/-- Modelled from the spec: `removeFromSubscriptionCache` of the absent
`utils/convex-cache` module (spec 4.4: "removes bookkeeping only, used
when the teardown was already invoked by the caller"). -/
def removeFromSubscriptionCache (registry : List (String × Nat))
    (key : String) : List (String × Nat) :=
  alistRemove registry key

/-- Insertion into a key-sorted entry list. -/
def insertSorted (e : String × JVal) :
    List (String × JVal) → List (String × JVal)
  | [] => [e]
  | x :: xs => if e.1 ≤ x.1 then e :: x :: xs else x :: insertSorted e xs

/-- Entries sorted by key (insertion sort), the canonical order of the
spec's deterministic serialization. -/
def sortFields : List (String × JVal) → List (String × JVal)
  | [] => []
  | x :: xs => insertSorted x (sortFields xs)

theorem sizeOf_insertSorted (e : String × JVal)
    (l : List (String × JVal)) :
    sizeOf (insertSorted e l) = 1 + sizeOf e + sizeOf l := by
  induction l with
  | nil => simp [insertSorted]
  | cons x xs ih =>
      by_cases h : e.1 ≤ x.1
      · simp only [insertSorted, h, if_true, List.cons.sizeOf_spec]
      · simp only [insertSorted, h, if_false, List.cons.sizeOf_spec, ih]
        omega

theorem sizeOf_sortFields (l : List (String × JVal)) :
    sizeOf (sortFields l) = sizeOf l := by
  induction l with
  | nil => simp [sortFields]
  | cons x xs ih =>
      simp only [sortFields, sizeOf_insertSorted, List.cons.sizeOf_spec, ih]

mutual

/-- Modelled from the spec: `stableStringify` of the absent
`utils/convex-cache` module (spec 4.1: canonicalize recursively, sorting
mapping keys and preserving sequence order, then serialize
deterministically). -/
def stableStringify : JVal → String
  | jnull => "null"
  | jundef => "undefined"
  | jbool b => if b then "true" else "false"
  | jnum q => numToString q
  | jnan => "NaN"
  | jstr s => "\"" ++ s ++ "\""
  | jarr xs => "[" ++ stableStringifyList xs ++ "]"
  | jobj fields => "\x7b" ++ stableStringifyFields (sortFields fields) ++ "\x7d"
termination_by v => sizeOf v
decreasing_by
  all_goals
    first
    | (simp only [jarr.sizeOf_spec]; omega)
    | (simp only [jobj.sizeOf_spec, sizeOf_sortFields]; omega)

/-- Comma-separated serialization of a sequence. -/
def stableStringifyList : List JVal → String
  | [] => ""
  | [x] => stableStringify x
  | x :: xs => stableStringify x ++ "," ++ stableStringifyList xs
termination_by xs => sizeOf xs
decreasing_by
  all_goals
    simp only [List.cons.sizeOf_spec, List.nil.sizeOf_spec]
  all_goals omega

/-- Comma-separated serialization of already-sorted object entries. -/
def stableStringifyFields : List (String × JVal) → String
  | [] => ""
  | [(k, v)] => "\"" ++ k ++ "\":" ++ stableStringify v
  | (k, v) :: rest =>
      "\"" ++ k ++ "\":" ++ stableStringify v ++ ","
        ++ stableStringifyFields rest
termination_by l => sizeOf l
decreasing_by
  all_goals
    simp only [List.cons.sizeOf_spec, List.nil.sizeOf_spec,
      Prod.mk.sizeOf_spec]
  all_goals omega

end

/-- Modelled from the spec: `getQueryKey` of the absent
`utils/convex-cache` module (spec 4.1: a key uniquely determined by the
function identity and the canonicalized arguments). -/
def getQueryKey (fnName : String) (args : JVal) : String :=
  "convex:query:" ++ fnName ++ ":" ++ stableStringify args

/-- The arguments of a query binding: a structured mapping or the `skip`
sentinel (`useConvexQuery`'s `Args | 'skip'`). -/
inductive QArgs where
  | skip
  | obj (fields : List (String × JVal))
deriving Repr

/-- The JS value the binding's arguments stand for (`'skip'` is the
literal string "skip"). -/
def argsVal : QArgs → JVal
  | .skip => jstr "skip"
  | .obj fields => jobj fields

/-- `getCacheKey` from `useConvexQuery.ts` (lines 154-158): the `skip`
sentinel yields a per-function key of its own, other arguments go through
`getQueryKey`. -/
def getCacheKey (fnName : String) (args : QArgs) : String :=
  match args with
  | .skip => "convex:skip:" ++ fnName
  | .obj fields => getQueryKey fnName (jobj fields)

/-! ## The reactive query binding (`useConvexQuery`, client side) -/

/-- The published query status of spec section 3 (`computeQueryStatus` of
the absent `utils/convex-cache` module is modelled from the spec: `idle`
with no data for a skipped binding, `success` once a value resolved). -/
inductive QueryStatus where
  | idle
  | pending
  | success
  | error
deriving Repr, DecidableEq

/-- The world a client-side binding acts on: the shared
`_convexSubscriptions` registry, the effect log of invoked teardowns,
a supply of fresh teardown handles, call counters for `convex.onUpdate`
registrations made by `setupSubscription` and for one-shot fetches run by
the `useAsyncData` handler, and the published data/status. -/
structure BindWorld where
  registry : List (String × Nat)
  invoked : List Nat
  nextId : Nat
  subscribeCalls : Nat
  fetchCalls : Nat
  data : Option JVal
  status : QueryStatus
deriving Repr

/-- The binding-local subscription handle `unsubscribeFn`
(`useConvexQuery.ts` line 226). -/
structure BindState where
  unsubscribeFn : Option Nat
deriving Repr

/-- A world with no subscriptions, no recorded effects and no published
data. -/
def emptyWorld : BindWorld :=
  { registry := [], invoked := [], nextId := 0, subscribeCalls := 0,
    fetchCalls := 0, data := none, status := .idle }

/-- The `useAsyncData` handler of `useConvexQuery.ts` (lines 175-215) on
the client, resolving synchronously: a skipped binding returns `undefined`
(the published data falls back to the caller's default and the status is
`idle`, spec 4.6 step 1); otherwise one one-shot fetch runs
(`executeQueryViaSubscription`) and its value is published with status
`success`.  `resolveQ` is the backend: the value the query resolves to for
given arguments. -/
def runHandler (args : QArgs) (defaultVal : Option JVal)
    (resolveQ : List (String × JVal) → JVal) (w : BindWorld) : BindWorld :=
  match args with
  | .skip => { w with data := defaultVal, status := .idle }
  | .obj fields =>
      { w with fetchCalls := w.fetchCalls + 1,
               data := some (resolveQ fields), status := .success }

/-- `setupSubscription` from `useConvexQuery.ts` (lines 230-266): bail out
on `skip`; bail out when the subscription cache already holds the key
(leaving `unsubscribeFn` untouched); otherwise call `convex.onUpdate`
(obtaining a fresh teardown handle), store it in `unsubscribeFn` and
register it. -/
def setupSubscription (fnName : String) (args : QArgs) (w : BindWorld)
    (b : BindState) : BindWorld × BindState :=
  match args with
  | .skip => (w, b)
  | .obj _ =>
      let key := getCacheKey fnName args
      if hasSubscription w.registry key then (w, b)
      else
        let tid := w.nextId
        let w1 := { w with
          nextId := tid + 1,
          subscribeCalls := w.subscribeCalls + 1,
          registry := registerSubscription w.registry key tid }
        (w1, { unsubscribeFn := some tid })

/-- Client-side initialization of `useConvexQuery` (lines 173-269): the
`useAsyncData` handler runs, then `setupSubscription()` with a fresh
`unsubscribeFn = null`. -/
def mountClient (fnName : String) (args : QArgs) (defaultVal : Option JVal)
    (resolveQ : List (String × JVal) → JVal) (w : BindWorld) :
    BindWorld × BindState :=
  setupSubscription fnName args (runHandler args defaultVal resolveQ w)
    { unsubscribeFn := none }

/-- An argument change on a reactive binding: the watcher of
`useConvexQuery.ts` lines 272-292 (when the canonical serializations
differ: clean up the old key via `getQueryKey`, null `unsubscribeFn`,
re-subscribe unless skipped) plus the re-run of the `useAsyncData` handler
that the same change triggers through its `watch` option (line 221). -/
def argsChangeStep (fnName : String) (oldArgs newArgs : QArgs)
    (defaultVal : Option JVal) (resolveQ : List (String × JVal) → JVal)
    (wb : BindWorld × BindState) : BindWorld × BindState :=
  let (w, b) := wb
  if stableStringify (argsVal newArgs) != stableStringify (argsVal oldArgs)
  then
    let oldKey := getQueryKey fnName (argsVal oldArgs)
    let (reg1, inv) := cleanupSubscription w.registry oldKey
    let w1 := { w with registry := reg1, invoked := w.invoked ++ inv }
    let b1 : BindState := { unsubscribeFn := none }
    let (w2, b2) :=
      match newArgs with
      | .skip => (w1, b1)
      | .obj _ => setupSubscription fnName newArgs w1 b1
    (runHandler newArgs defaultVal resolveQ w2, b2)
  else (w, b)

/-- The `onUnmounted` hook of `useConvexQuery.ts` (lines 295-302): only
when this binding holds an `unsubscribeFn`, remove the current cache key
from the subscription cache and invoke the teardown. -/
def unmountStep (fnName : String) (args : QArgs)
    (wb : BindWorld × BindState) : BindWorld × BindState :=
  let (w, b) := wb
  match b.unsubscribeFn with
  | none => (w, b)
  | some tid =>
      let key := getCacheKey fnName args
      let w1 := { w with
        registry := removeFromSubscriptionCache w.registry key,
        invoked := w.invoked ++ [tid] }
      (w1, { unsubscribeFn := none })

/-! ## One-shot refetch ordering (the generation-counter property)

The binding state of `useConvexQuery.ts` keeps no generation counter: when
the `useAsyncData` handler is re-run for new arguments while an older run
is still in flight, each run's result is applied when it resolves (spec
section 5: "results are applied in resolution order, not issuance order").
The trace model below is that resolution-order application; spec section 9
records that the generation counter is a required hardening the source
does not implement. -/

/-- One event in the life of a binding's one-shot fetches: a handler run
is issued for a fetch id, or a previously issued run resolves and its
value is applied to the published data. -/
inductive OneShotEvent where
  | start (fetchId : Nat)
  | resolve (fetchId : Nat)
deriving Repr, DecidableEq

/-- Applying one event to the published data: a resolution stores its
fetch's value unconditionally, there being no generation check in the
source. `valueOf` maps a fetch id to the value that fetch eventually
produces (fixed by the arguments the handler captured when it started). -/
def applyOneShot (valueOf : Nat → String) (data : Option String) :
    OneShotEvent → Option String
  | .start _ => data
  | .resolve i => some (valueOf i)

/-- The published data after a trace of one-shot events. -/
def runOneShot (valueOf : Nat → String) (events : List OneShotEvent) :
    Option String :=
  events.foldl (applyOneShot valueOf) none

/-- Modelled from the spec: the generation-gated binding state of spec
sections 3 and 5, which section 9 adds as a required hardening absent from
the source — the binding tracks the generation of the latest issued fetch
and discards any resolution of a superseded generation. -/
structure GenState where
  data : Option String
  current : Nat
deriving Repr, DecidableEq

/-- Modelled from the spec: one event applied to the generation-gated
state; issuing a fetch makes its id the current generation, and a
resolution is applied only while its generation is still current. -/
def applyOneShotGated (valueOf : Nat → String) (st : GenState) :
    OneShotEvent → GenState
  | .start i => { st with current := i }
  | .resolve i =>
      if i = st.current then { st with data := some (valueOf i) } else st

/-- The generation-gated state after a trace of one-shot events. -/
def runOneShotGated (valueOf : Nat → String) (events : List OneShotEvent) :
    GenState :=
  events.foldl (applyOneShotGated valueOf) { data := none, current := 0 }

/-! ## First-result resolution over the live subscription -/

/-- The closure state of `executeQueryViaSubscription`
(`useConvexQuery.ts` lines 78-93): the `resolved` flag, the value the
promise was resolved with, and how many times `unsubscribe` ran. -/
structure FirstResultState where
  resolved : Bool
  value : Option JVal
  unsubCalls : Nat
deriving Repr

/-- One push from the live subscription into the `onUpdate` callback: the
first push resolves the promise and unsubscribes, any later push finds
`resolved` set and does nothing. -/
def firstResultStep (st : FirstResultState) (result : JVal) :
    FirstResultState :=
  if st.resolved then st
  else { resolved := true, value := some result,
         unsubCalls := st.unsubCalls + 1 }

/-- `executeQueryViaSubscription`, run against the sequence of values the
live subscription pushes. -/
def executeQueryViaSubscription (updates : List JVal) : FirstResultState :=
  updates.foldl firstResultStep
    { resolved := false, value := none, unsubCalls := 0 }

/-! ## Helper lemmas -/

theorem foldl_firstResultStep_resolved (rest : List JVal)
    (st : FirstResultState) (h : st.resolved = true) :
    rest.foldl firstResultStep st = st := by
  induction rest with
  | nil => rfl
  | cons u us ih => simpa [List.foldl, firstResultStep, h] using ih

theorem alistGet_eq_none_of_not_has (l : List (String × Nat)) (key : String)
    (h : alistHas l key = false) : alistGet l key = none := by
  induction l with
  | nil => rfl
  | cons e rest ih =>
      obtain ⟨k, t⟩ := e
      simp only [alistHas, Bool.or_eq_false_iff] at h
      simp [alistGet, h.1, ih h.2]

theorem countP_eq_zero_of_not_has (l : List (String × Nat)) (key : String)
    (h : alistHas l key = false) :
    l.countP (fun e => e.1 == key) = 0 := by
  induction l with
  | nil => rfl
  | cons e rest ih =>
      obtain ⟨k, t⟩ := e
      simp only [alistHas, Bool.or_eq_false_iff] at h
      simp [List.countP_cons, h.1, ih h.2]

theorem alistGet_alistRemove_self (l : List (String × Nat)) (key : String) :
    alistGet (alistRemove l key) key = none := by
  induction l with
  | nil => rfl
  | cons e rest ih =>
      obtain ⟨k, t⟩ := e
      by_cases h : k == key
      · simp [alistRemove, h, ih]
      · simp [alistRemove, alistGet, h, ih]

/-! ## Claim theorems -/

/-- C9: for every update sequence the live subscription delivers that
contains at least one pushed value, `executeQueryViaSubscription` resolves
with the first pushed value, invokes `unsubscribe` exactly once upon that
first value, and ignores every later push (the resolved value never
changes). -/
theorem C9_first_result_resolution (u : JVal) (rest : List JVal) :
    executeQueryViaSubscription (u :: rest) =
      { resolved := true, value := some u, unsubCalls := 1 } := by
  have h : firstResultStep
      { resolved := false, value := none, unsubCalls := 0 } u =
      { resolved := true, value := some u, unsubCalls := 1 } := rfl
  simp only [executeQueryViaSubscription, List.foldl, h]
  exact foldl_firstResultStep_resolved rest _ rfl

/-- C1: the binding's one-shot refetch path applies results in resolution
order with no generation gating (the source keeps no generation counter),
so a stale fetch that resolves after a newer fetch's result was applied
overwrites it: in the spec's scenario (fetch 1 for the old arguments
eventually yields "a", fetch 2 for the new arguments yields "b", fetch 2
resolves first) the published data ends as the superseded "a", though it
was "b" before the stale resolution arrived; under the generation-gated
semantics the spec requires, the same trace ends with "b". -/
theorem C1_stale_one_shot_overwrites :
    runOneShot (fun i => if i = 1 then "a" else "b")
      [.start 1, .start 2, .resolve 2, .resolve 1] = some "a" ∧
    runOneShot (fun i => if i = 1 then "a" else "b")
      [.start 1, .start 2, .resolve 2] = some "b" ∧
    (runOneShotGated (fun i => if i = 1 then "a" else "b")
      [.start 1, .start 2, .resolve 2, .resolve 1]).data = some "b" ∧
    ("a" : String) ≠ "b" := by
  refine ⟨rfl, rfl, rfl, by decide⟩

/-- C2: with a (truthy) cached token and `forceRefreshToken = true`,
`fetchToken` returns the cached token unchanged with zero network calls
while the time since the last validation is under the 10 000 ms TTL, and
issues exactly one network fetch once the TTL is exceeded. -/
theorem C2_token_cache_ttl (st : AuthState) (now : Nat) (net : TokenNet)
    (extractUser : String → Option JVal)
    (htok : tokenTruthy st.token = true) :
    (now - st.lastValidation < DEFAULT_TOKEN_CACHE_TTL_MS →
      fetchToken st true now net extractUser =
        { ret := st.token, st := st, calls := 0 }) ∧
    (DEFAULT_TOKEN_CACHE_TTL_MS ≤ now - st.lastValidation →
      (fetchToken st true now net extractUser).calls = 1) := by
  constructor
  · intro hlt
    simp [fetchToken, htok, TOKEN_CACHE_MS,
      show now - st.lastValidation < 10000 from hlt]
  · intro hge
    have hnlt : ¬(now - st.lastValidation < TOKEN_CACHE_MS) := by
      simp only [TOKEN_CACHE_MS]
      simp only [DEFAULT_TOKEN_CACHE_TTL_MS] at hge
      omega
    cases net with
    | thrown => simp [fetchToken, htok, hnlt]
    | resp error data =>
        by_cases herr : (error || !(tokenTruthy data)) = true
        · simp [fetchToken, htok, hnlt, herr]
        · cases data with
          | none => simp [tokenTruthy] at herr
          | some t => simp [fetchToken, htok, hnlt, herr]

/-- C2 witness: at 3000 ms elapsed the cached token comes back with zero
network calls; at 11 000 ms one fetch is issued. -/
theorem C2_token_cache_ttl_witness :
    (fetchToken { token := some "tok", user := none, lastValidation := 0 }
        true 3000 (.resp false (some "fresh")) (fun _ => none) =
      { ret := some "tok",
        st := { token := some "tok", user := none, lastValidation := 0 },
        calls := 0 }) ∧
    (fetchToken { token := some "tok", user := none, lastValidation := 0 }
        true 11000 (.resp false (some "fresh")) (fun _ => none)).calls
      = 1 := by
  refine ⟨?_, ?_⟩
  · exact (C2_token_cache_ttl
      { token := some "tok", user := none, lastValidation := 0 } 3000
      (.resp false (some "fresh")) (fun _ => none) rfl).1 (by decide)
  · exact (C2_token_cache_ttl
      { token := some "tok", user := none, lastValidation := 0 } 11000
      (.resp false (some "fresh")) (fun _ => none) rfl).2 (by decide)

/-- C3 counterexample: in the runtime plugin's `fetchToken`
(`plugin.client.ts`), a call with no hydrated token and no derived
identity does not return null without network activity — it proceeds to
the network fetch (one call) and returns whatever the fetch yields. -/
theorem C3_no_state_counterexample :
    (fetchToken { token := none, user := none, lastValidation := 0 } false
        5000 (.resp false (some "t")) (fun _ => none)).calls = 1 ∧
    (fetchToken { token := none, user := none, lastValidation := 0 } false
        5000 (.resp false (some "t")) (fun _ => none)).ret = some "t" := by
  constructor <;> rfl

/-- C3 amended: only the `part_002` rendition of the client plugin guards
the unauthenticated case: its `fetchToken` returns null with zero network
calls (state untouched) whenever neither a truthy token nor a truthy
derived identity exists; the runtime `plugin.client.ts` rendition has no
such branch and proceeds to a network fetch there. -/
theorem C3_variant_no_state_guard (st : AuthState) (forceRefreshToken : Bool)
    (now : Nat) (net : TokenNet)
    (htok : tokenTruthy st.token = false)
    (husr : userTruthy st.user = false) :
    fetchTokenVariant st forceRefreshToken now net =
      { ret := none, st := st, calls := 0 } := by
  simp [fetchTokenVariant, htok, husr]

/-- C3 witness: a concrete unauthenticated state returns null with zero
network calls through the variant's guard. -/
theorem C3_variant_no_state_guard_witness :
    fetchTokenVariant { token := none, user := none, lastValidation := 0 }
        true 99999 .thrown =
      { ret := none,
        st := { token := none, user := none, lastValidation := 0 },
        calls := 0 } :=
  C3_variant_no_state_guard
    { token := none, user := none, lastValidation := 0 } true 99999 .thrown
    rfl rfl

/-- C4 counterexample: in the `part_002` rendition of the client plugin, a
`fetchToken` call whose network fetch throws returns null and clears the
token but leaves the stored derived identity in place (the claim says both
are cleared). -/
theorem C4_identity_not_cleared_counterexample :
    ((fetchTokenVariant
        { token := some "old", user := some (jstr "u"), lastValidation := 0 }
        true 20000 .thrown).ret = none) ∧
    ((fetchTokenVariant
        { token := some "old", user := some (jstr "u"), lastValidation := 0 }
        true 20000 .thrown).st.token = none) ∧
    ((fetchTokenVariant
        { token := some "old", user := some (jstr "u"), lastValidation := 0 }
        true 20000 .thrown).st.user = some (jstr "u")) := by
  refine ⟨rfl, rfl, rfl⟩

/-- C4 amended: on every failing, throwing or malformed network fetch the
runtime plugin's `fetchToken` clears both the stored token and the stored
derived identity and returns null to the caller; the `part_002` rendition
also returns null but clears only the token, leaving the derived identity
as it was. -/
theorem C4_failure_clears_state :
    (∀ (st : AuthState) (forceRefreshToken : Bool) (now : Nat)
        (net : TokenNet) (extractUser : String → Option JVal),
      netFails net = true →
      (fetchToken st forceRefreshToken now net extractUser).calls = 1 →
      (fetchToken st forceRefreshToken now net extractUser).ret = none ∧
      (fetchToken st forceRefreshToken now net extractUser).st.token = none ∧
      (fetchToken st forceRefreshToken now net extractUser).st.user = none) ∧
    (∀ (st : AuthState) (forceRefreshToken : Bool) (now : Nat)
        (net : TokenNet),
      netFails net = true →
      (fetchTokenVariant st forceRefreshToken now net).calls = 1 →
      (fetchTokenVariant st forceRefreshToken now net).ret = none ∧
      (fetchTokenVariant st forceRefreshToken now net).st.token = none ∧
      (fetchTokenVariant st forceRefreshToken now net).st.user = st.user) := by
  constructor
  · intro st frt now net extractUser hfail hcall
    by_cases hb1 : (tokenTruthy st.token && !frt) = true
    · simp [fetchToken, hb1] at hcall
    · by_cases hb2 : (tokenTruthy st.token && frt
          && decide (now - st.lastValidation < TOKEN_CACHE_MS)) = true
      · simp [fetchToken, hb1, hb2] at hcall
      · cases net with
        | thrown => simp [fetchToken, hb1, hb2]
        | resp error data =>
            have herr : (error || !(tokenTruthy data)) = true := by
              simpa [netFails] using hfail
            simp [fetchToken, hb1, hb2, herr]
  · intro st frt now net hfail hcall
    by_cases hb1 : (tokenTruthy st.token && !frt) = true
    · simp [fetchTokenVariant, hb1] at hcall
    · by_cases hb2 : (tokenTruthy st.token && frt
          && decide (now - st.lastValidation < TOKEN_CACHE_MS)) = true
      · simp [fetchTokenVariant, hb1, hb2] at hcall
      · by_cases hb3 : (!(tokenTruthy st.token) && !(userTruthy st.user))
            = true
        · simp [fetchTokenVariant, hb1, hb2, hb3] at hcall
        · cases net with
          | thrown => simp [fetchTokenVariant, hb1, hb2, hb3]
          | resp error data =>
              have herr : (error || !(tokenTruthy data)) = true := by
                simpa [netFails] using hfail
              simp [fetchTokenVariant, hb1, hb2, hb3, herr]

/-- C4 witness: a concrete failing fetch (error envelope) clears token and
identity in the runtime plugin and returns null. -/
theorem C4_failure_clears_state_witness :
    (fetchToken { token := some "old", user := some (jstr "u"), lastValidation := 0 } true 20000 (.resp true none) (fun _ => none)).ret = none ∧
    (fetchToken { token := some "old", user := some (jstr "u"), lastValidation := 0 } true 20000 (.resp true none) (fun _ => none)).st.token = none ∧
    (fetchToken { token := some "old", user := some (jstr "u"), lastValidation := 0 } true 20000 (.resp true none) (fun _ => none)).st.user = none :=
  C4_failure_clears_state.1
    { token := some "old", user := some (jstr "u"), lastValidation := 0 }
    true 20000 (.resp true none) (fun _ => none) rfl rfl

/-- C6: on a registry that holds no entry for a key, registering two
subscriptions for that key stores exactly one teardown (the second call is
a no-op that keeps the first), and cleanup on that key invokes the stored
teardown exactly once even when called twice. -/
theorem C6_registry_dedup_idempotent_cleanup
    (registry : List (String × Nat)) (key : String) (t1 t2 : Nat)
    (habs : alistHas registry key = false) :
    registerSubscription (registerSubscription registry key t1) key t2 =
      registerSubscription registry key t1 ∧
    (registerSubscription registry key t1).countP (fun e => e.1 == key)
      = 1 ∧
    (cleanupSubscription (registerSubscription registry key t1) key).2
      = [t1] ∧
    (cleanupSubscription
        (cleanupSubscription
          (registerSubscription registry key t1) key).1 key).2 = [] := by
  have hreg : registerSubscription registry key t1 = (key, t1) :: registry := by
    simp [registerSubscription, habs]
  have hhas : alistHas ((key, t1) :: registry) key = true := by
    simp [alistHas]
  refine ⟨?_, ?_, ?_, ?_⟩
  · simp [registerSubscription, habs, alistHas]
  · simp [hreg, List.countP_cons, countP_eq_zero_of_not_has registry key habs]
  · simp [hreg, cleanupSubscription, alistGet]
  · have hget1 : alistGet ((key, t1) :: registry) key = some t1 := by
      simp [alistGet]
    simp only [hreg, cleanupSubscription, hget1]
    have hrem : alistRemove ((key, t1) :: registry) key
        = alistRemove registry key := by
      simp [alistRemove]
    rw [hrem, alistGet_alistRemove_self]

/-- C6 witness: the dedup and single-invocation behaviour at a concrete
key on the empty registry. -/
theorem C6_registry_dedup_idempotent_cleanup_witness :
    registerSubscription (registerSubscription [] "k" 0) "k" 1 =
      registerSubscription [] "k" 0 ∧
    (registerSubscription [] "k" 0).countP (fun e => e.1 == "k") = 1 ∧
    (cleanupSubscription (registerSubscription [] "k" 0) "k").2 = [0] ∧
    (cleanupSubscription
        (cleanupSubscription (registerSubscription [] "k" 0) "k").1
        "k").2 = [] :=
  C6_registry_dedup_idempotent_cleanup [] "k" 0 1 rfl

theorem stableStringify_obj_ne_skip (fields : List (String × JVal)) :
    stableStringify (jobj fields) ≠ stableStringify (jstr "skip") := by
  intro h
  rw [stableStringify, stableStringify] at h
  have hd := congrArg (fun s => s.data.head?) h
  simp [String.data_append] at hd

/-- C5: a binding mounted with the `skip` sentinel performs no fetch,
registers no subscription, publishes the caller's default with `idle`
status; changing the arguments from `skip` to a concrete mapping then
triggers exactly one fetch and exactly one subscription registration. -/
theorem C5_skip_idle_then_single_fetch (fnName : String)
    (fields : List (String × JVal)) (defaultVal : Option JVal)
    (resolveQ : List (String × JVal) → JVal) :
    (mountClient fnName .skip defaultVal resolveQ emptyWorld).1.fetchCalls
      = 0 ∧
    (mountClient fnName .skip defaultVal resolveQ
      emptyWorld).1.subscribeCalls = 0 ∧
    (mountClient fnName .skip defaultVal resolveQ emptyWorld).1.registry
      = [] ∧
    (mountClient fnName .skip defaultVal resolveQ emptyWorld).1.data
      = defaultVal ∧
    (mountClient fnName .skip defaultVal resolveQ emptyWorld).1.status
      = .idle ∧
    (mountClient fnName .skip defaultVal resolveQ
      emptyWorld).2.unsubscribeFn = none ∧
    (argsChangeStep fnName .skip (.obj fields) defaultVal resolveQ
      (mountClient fnName .skip defaultVal resolveQ
        emptyWorld)).1.fetchCalls = 1 ∧
    (argsChangeStep fnName .skip (.obj fields) defaultVal resolveQ
      (mountClient fnName .skip defaultVal resolveQ
        emptyWorld)).1.subscribeCalls = 1 := by
  have hmount : mountClient fnName .skip defaultVal resolveQ emptyWorld =
      ({ emptyWorld with data := defaultVal, status := .idle },
        { unsubscribeFn := none }) := by
    simp [mountClient, runHandler, setupSubscription]
  have hne : (stableStringify (argsVal (.obj fields)) !=
      stableStringify (argsVal .skip)) = true := by
    simp only [argsVal, bne_iff_ne, ne_eq]
    exact stableStringify_obj_ne_skip fields
  refine ⟨?_, ?_, ?_, ?_, ?_, ?_, ?_, ?_⟩ <;>
    rw [hmount] <;>
    simp [argsChangeStep, hne, cleanupSubscription, alistGet,
      setupSubscription, hasSubscription, alistHas,
      registerSubscription, runHandler, emptyWorld]

/-- C10: a binding whose cache key already has a registry entry at
subscription setup registers no teardown of its own (`unsubscribeFn`
stays null) and leaves the registry and registration count untouched; its
later unmount is a complete no-op (no unsubscribe invocation, no removal
from the subscription cache), so the pre-existing entry stays registered. -/
theorem C10_existing_subscription_reused (fnName : String)
    (fields : List (String × JVal)) (defaultVal : Option JVal)
    (resolveQ : List (String × JVal) → JVal) (w : BindWorld)
    (hsub : hasSubscription w.registry
      (getCacheKey fnName (.obj fields)) = true) :
    (mountClient fnName (.obj fields) defaultVal resolveQ
      w).2.unsubscribeFn = none ∧
    (mountClient fnName (.obj fields) defaultVal resolveQ w).1.registry
      = w.registry ∧
    (mountClient fnName (.obj fields) defaultVal resolveQ
      w).1.subscribeCalls = w.subscribeCalls ∧
    unmountStep fnName (.obj fields)
        (mountClient fnName (.obj fields) defaultVal resolveQ w) =
      mountClient fnName (.obj fields) defaultVal resolveQ w ∧
    hasSubscription
      (unmountStep fnName (.obj fields)
        (mountClient fnName (.obj fields) defaultVal resolveQ
          w)).1.registry (getCacheKey fnName (.obj fields)) = true := by
  have hmount : mountClient fnName (.obj fields) defaultVal resolveQ w =
      (runHandler (.obj fields) defaultVal resolveQ w,
        { unsubscribeFn := none }) := by
    simp [mountClient, setupSubscription, runHandler, hsub]
  have hreg : (runHandler (.obj fields) defaultVal resolveQ w).registry
      = w.registry := by
    simp [runHandler]
  refine ⟨?_, ?_, ?_, ?_, ?_⟩ <;>
    simp [hmount, unmountStep, hreg, hsub, runHandler]

/-- C10 witness: a concrete binding against a registry that already holds
its cache key. -/
theorem C10_existing_subscription_reused_witness :
    (mountClient "posts:get" (.obj [("id", jnum 5)]) none (fun _ => jnull)
      { registry := [(getCacheKey "posts:get" (.obj [("id", jnum 5)]), 7)], invoked := [], nextId := 8, subscribeCalls := 1, fetchCalls := 0, data := none, status := .idle }).2.unsubscribeFn = none ∧
    (mountClient "posts:get" (.obj [("id", jnum 5)]) none (fun _ => jnull)
      { registry := [(getCacheKey "posts:get" (.obj [("id", jnum 5)]), 7)], invoked := [], nextId := 8, subscribeCalls := 1, fetchCalls := 0, data := none, status := .idle }).1.registry = [(getCacheKey "posts:get" (.obj [("id", jnum 5)]), 7)] ∧
    (mountClient "posts:get" (.obj [("id", jnum 5)]) none (fun _ => jnull)
      { registry := [(getCacheKey "posts:get" (.obj [("id", jnum 5)]), 7)], invoked := [], nextId := 8, subscribeCalls := 1, fetchCalls := 0, data := none, status := .idle }).1.subscribeCalls = 1 := by
  have h := C10_existing_subscription_reused "posts:get" [("id", jnum 5)]
    none (fun _ => jnull)
    { registry := [(getCacheKey "posts:get" (.obj [("id", jnum 5)]), 7)], invoked := [], nextId := 8, subscribeCalls := 1, fetchCalls := 0, data := none, status := .idle }
    (by simp [hasSubscription, alistHas])
  exact ⟨h.1, h.2.1, h.2.2.1⟩

theorem one_le_sizeOf_jval (v : JVal) : 1 ≤ sizeOf v := by
  cases v <;> simp_arith

theorem charListCmp_swap (xs ys : List Char) :
    charListCmp ys xs = (charListCmp xs ys).swap := by
  induction xs generalizing ys with
  | nil => cases ys <;> simp [charListCmp, Ordering.swap]
  | cons c cs ih =>
      cases ys with
      | nil => simp [charListCmp, Ordering.swap]
      | cons d ds =>
          by_cases h1 : c.toNat < d.toNat
          · have h2 : ¬(d.toNat < c.toNat) := by omega
            simp [charListCmp, h1, h2, Ordering.swap]
          · by_cases h2 : d.toNat < c.toNat
            · simp [charListCmp, h1, h2, Ordering.swap]
            · simp [charListCmp, h1, h2, ih]

theorem charListCmp_lt_trans (xs ys zs : List Char)
    (h1 : charListCmp xs ys = .lt) (h2 : charListCmp ys zs = .lt) :
    charListCmp xs zs = .lt := by
  induction xs generalizing ys zs with
  | nil =>
      cases ys with
      | nil => simp [charListCmp] at h1
      | cons y ys2 =>
          cases zs with
          | nil => simp [charListCmp] at h2
          | cons z zs2 => simp [charListCmp]
  | cons x xs2 ih =>
      cases ys with
      | nil => simp [charListCmp] at h1
      | cons y ys2 =>
          cases zs with
          | nil => simp [charListCmp] at h2
          | cons z zs2 =>
              simp only [charListCmp] at h1 h2 ⊢
              by_cases hxy : x.toNat < y.toNat
              · by_cases hyz : y.toNat < z.toNat
                · have : x.toNat < z.toNat := by omega
                  simp [this]
                · by_cases hzy : z.toNat < y.toNat
                  · simp [hyz, hzy] at h2
                  · have : x.toNat < z.toNat := by omega
                    simp [this]
              · by_cases hyx : y.toNat < x.toNat
                · simp [hxy, hyx] at h1
                · by_cases hyz : y.toNat < z.toNat
                  · have : x.toNat < z.toNat := by omega
                    simp [this]
                  · by_cases hzy : z.toNat < y.toNat
                    · simp [hyz, hzy] at h2
                    · have hxz1 : ¬(x.toNat < z.toNat) := by omega
                      have hxz2 : ¬(z.toNat < x.toNat) := by omega
                      simp only [hxy, hyx, if_false, reduceIte] at h1
                      simp only [hyz, hzy, if_false, reduceIte] at h2
                      simp only [hxz1, hxz2, if_false, reduceIte]
                      exact ih ys2 zs2 h1 h2

theorem strCmp_antisym (s t : String) : strCmp t s = -(strCmp s t) := by
  rw [strCmp, strCmp, charListCmp_swap]
  cases charListCmp s.data t.data <;> simp [Ordering.swap]

theorem strCmp_neg_iff (s t : String) :
    strCmp s t < 0 ↔ charListCmp s.data t.data = .lt := by
  rw [strCmp]
  cases charListCmp s.data t.data <;> simp

theorem strCmp_lt_trans (s t u : String) (h1 : strCmp s t < 0)
    (h2 : strCmp t u < 0) : strCmp s u < 0 := by
  rw [strCmp_neg_iff] at h1 h2 ⊢
  exact charListCmp_lt_trans _ _ _ h1 h2

theorem compareScalar_antisym (a b : JVal) :
    compareScalar b a = negRes (compareScalar a b) := by
  cases a <;> cases b <;>
    simp only [compareScalar, isNullish, hasIntegerKey, negRes,
      Bool.and_self, Bool.and_false, Bool.false_and, Bool.and_true,
      Bool.true_and, Bool.false_eq_true, if_true, if_false, neg_zero,
      neg_neg, reduceIte] <;>
    first
    | rfl
    | (rw [strCmp_antisym]; done)
    | (rename_i p q; rw [show q - p = -(p - q) by ring]; done)
    | skip
  case jbool.jbool x y => cases x <;> cases y <;> norm_num
  case jobj.jobj fa fb =>
    by_cases h1 : hasKey fa "$integer" = true <;>
      by_cases h2 : hasKey fb "$integer" = true <;>
      [skip; rw [Bool.not_eq_true] at h2; rw [Bool.not_eq_true] at h1;
        rw [Bool.not_eq_true] at h1 h2] <;>
      simp only [h1, h2, Bool.and_self, Bool.and_false, Bool.false_and,
        Bool.and_true, Bool.true_and, Bool.false_eq_true, if_true, if_false,
        reduceIte]
    all_goals
      first
      | (rw [strCmp_antisym]; done)
      | (rcases integerPayload (jobj fa) with _ | i <;>
           rcases integerPayload (jobj fb) with _ | j <;> simp)

theorem negRes_eq_val_zero (c : CmpRes) :
    (negRes c = .val 0) ↔ (c = .val 0) := by
  cases c with
  | val q => simp [negRes, neg_eq_zero]
  | nan => simp [negRes]
  | thrown => simp [negRes]

theorem compare_antisym_aux : ∀ n : Nat,
    (∀ a b : JVal, sizeOf a + sizeOf b ≤ n →
      compareJsonValues b a = negRes (compareJsonValues a b)) ∧
    (∀ xs ys : List JVal, sizeOf xs + sizeOf ys ≤ n →
      compareJsonList ys xs = negRes (compareJsonList xs ys)) := by
  intro n
  induction n using Nat.strong_induction_on with
  | _ n ih =>
    constructor
    · intro a b hsz
      cases a <;> cases b <;>
        first
        | (simp only [compareJsonValues]; exact compareScalar_antisym _ _)
        | skip
      rename_i xs ys
      simp only [compareJsonValues, jarr.sizeOf_spec] at hsz ⊢
      have hlt : sizeOf xs + sizeOf ys < n := by omega
      exact (ih _ hlt).2 xs ys (le_refl _)
    · intro xs ys hsz
      cases xs with
      | nil =>
          cases ys with
          | nil => simp [compareJsonList, negRes]
          | cons y ys2 =>
              simp only [List.nil.sizeOf_spec, List.cons.sizeOf_spec] at hsz
              have hv : compareJsonValues y jundef
                  = negRes (compareJsonValues jundef y) := by
                have hlt : sizeOf (jundef) + sizeOf y < n := by
                  simp only [jundef.sizeOf_spec]
                  have := one_le_sizeOf_list ys2
                  omega
                exact (ih _ hlt).1 jundef y (le_refl _)
              have hl : compareJsonList ys2 []
                  = negRes (compareJsonList [] ys2) := by
                have hlt : sizeOf ([] : List JVal) + sizeOf ys2 < n := by
                  simp only [List.nil.sizeOf_spec]
                  have h1 := one_le_sizeOf_jval y
                  omega
                exact (ih _ hlt).2 [] ys2 (le_refl _)
              rw [compareJsonList, compareJsonList, hv]
              by_cases hz : compareJsonValues jundef y = .val 0
              · simp [hz, negRes, hl]
              · have hz2 : ¬(negRes (compareJsonValues jundef y) = .val 0) := by
                  simpa [negRes_eq_val_zero] using hz
                simp [hz, hz2]
      | cons x xs2 =>
          cases ys with
          | nil =>
              simp only [List.nil.sizeOf_spec, List.cons.sizeOf_spec] at hsz
              have hv : compareJsonValues jundef x
                  = negRes (compareJsonValues x jundef) := by
                have hlt : sizeOf x + sizeOf (jundef) < n := by
                  simp only [jundef.sizeOf_spec]
                  have := one_le_sizeOf_list xs2
                  omega
                exact (ih _ hlt).1 x jundef (le_refl _)
              have hl : compareJsonList [] xs2
                  = negRes (compareJsonList xs2 []) := by
                have hlt : sizeOf xs2 + sizeOf ([] : List JVal) < n := by
                  simp only [List.nil.sizeOf_spec]
                  have h1 := one_le_sizeOf_jval x
                  omega
                exact (ih _ hlt).2 xs2 [] (le_refl _)
              rw [compareJsonList, compareJsonList, hv]
              by_cases hz : compareJsonValues x jundef = .val 0
              · simp [hz, negRes, hl]
              · have hz2 : ¬(negRes (compareJsonValues x jundef) = .val 0) := by
                  simpa [negRes_eq_val_zero] using hz
                simp [hz, hz2]
          | cons y ys2 =>
              simp only [List.cons.sizeOf_spec] at hsz
              have hv : compareJsonValues y x
                  = negRes (compareJsonValues x y) := by
                have hlt : sizeOf x + sizeOf y < n := by
                  have h1 := one_le_sizeOf_list xs2
                  have h2 := one_le_sizeOf_list ys2
                  omega
                exact (ih _ hlt).1 x y (le_refl _)
              have hl : compareJsonList ys2 xs2
                  = negRes (compareJsonList xs2 ys2) := by
                have hlt : sizeOf xs2 + sizeOf ys2 < n := by
                  have h1 := one_le_sizeOf_jval x
                  have h2 := one_le_sizeOf_jval y
                  omega
                exact (ih _ hlt).2 xs2 ys2 (le_refl _)
              rw [compareJsonList, compareJsonList, hv]
              by_cases hz : compareJsonValues x y = .val 0
              · simp [hz, negRes, hl]
              · have hz2 : ¬(negRes (compareJsonValues x y) = .val 0) := by
                  simpa [negRes_eq_val_zero] using hz
                simp [hz, hz2]

/-- Sign-antisymmetry of `compareJsonValues` over the whole value
domain. -/
theorem compareJsonValues_antisym (a b : JVal) :
    compareJsonValues b a = negRes (compareJsonValues a b) :=
  (compare_antisym_aux (sizeOf a + sizeOf b)).1 a b (le_refl _)


theorem jsToString_jnum_ten : jsToString (jnum 10) = "10" := by
  rw [jsToString]; decide

theorem jsToString_jnum_two : jsToString (jnum 2) = "2" := by
  rw [jsToString]; decide

theorem jsToString_jstr (s : String) : jsToString (jstr s) = s := by
  rw [jsToString]

theorem compare_ten_elevenStr : compareJsonValues (jnum 10) (jstr "11")
    = .val (-1) := by
  simp only [compareJsonValues, compareScalar, isNullish, hasIntegerKey,
    Bool.and_self, Bool.false_and, Bool.and_false, Bool.false_eq_true,
    if_false, reduceIte, jsToString_jnum_ten, jsToString_jstr]
  decide

theorem compare_elevenStr_two : compareJsonValues (jstr "11") (jnum 2)
    = .val (-1) := by
  simp only [compareJsonValues, compareScalar, isNullish, hasIntegerKey,
    Bool.and_self, Bool.false_and, Bool.and_false, Bool.false_eq_true,
    if_false, reduceIte, jsToString_jnum_two, jsToString_jstr]
  decide

theorem compare_ten_two : compareJsonValues (jnum 10) (jnum 2)
    = .val 8 := by
  simp only [compareJsonValues, compareScalar, isNullish,
    Bool.and_self, Bool.false_eq_true, if_false, reduceIte]
  norm_num

/-- C7 counterexample: `compareJsonValues` is not transitive on the
supported value domain.  The numbers 10 and 2 compare numerically
(10 > 2), but each compares with the string "11" through the
`String(...)` fallback, where "10" < "11" and "11" < "2"
lexicographically, giving the cycle 10 < "11" < 2 < 10: from
10 < "11" and "11" < 2, a strict total order would force 10 < 2,
which fails. -/
theorem C7_not_transitive_counterexample :
    cmpLt (jnum 10) (jstr "11") ∧
    cmpLt (jstr "11") (jnum 2) ∧
    ¬ cmpLt (jnum 10) (jnum 2) ∧
    ¬ (∀ a b c : JVal, cmpLt a b → cmpLt b c → cmpLt a c) := by
  have h1 : cmpLt (jnum 10) (jstr "11") :=
    ⟨-1, compare_ten_elevenStr, by norm_num⟩
  have h2 : cmpLt (jstr "11") (jnum 2) :=
    ⟨-1, compare_elevenStr_two, by norm_num⟩
  have h3 : ¬ cmpLt (jnum 10) (jnum 2) := by
    rintro ⟨q, hq, hlt⟩
    rw [compare_ten_two] at hq
    injection hq with hq
    rw [← hq] at hlt
    norm_num at hlt
  exact ⟨h1, h2, h3, fun h => h3 (h _ _ _ h1 h2)⟩

/-- C7 amended: `compareJsonValues` is sign-antisymmetric on the whole
supported value domain (swapping the operands negates the outcome, `NaN`
and thrown payloads included), arrays compare element-by-element with the
first non-zero comparison deciding, and the induced strict order is
transitive on pairs of one scalar kind (two finite numbers, two strings,
two booleans); transitivity fails across mixed-type pairs, where the
`String(...)` fallback takes over (counterexample 10, "11", 2). -/
theorem C7_amended_order_properties :
    (∀ a b : JVal, compareJsonValues b a = negRes (compareJsonValues a b)) ∧
    (∀ p q r : Rat, cmpLt (jnum p) (jnum q) → cmpLt (jnum q) (jnum r) →
      cmpLt (jnum p) (jnum r)) ∧
    (∀ s t u : String, cmpLt (jstr s) (jstr t) → cmpLt (jstr t) (jstr u) →
      cmpLt (jstr s) (jstr u)) ∧
    (∀ x y z : Bool, cmpLt (jbool x) (jbool y) → cmpLt (jbool y) (jbool z) →
      cmpLt (jbool x) (jbool z)) ∧
    (∀ (x y : JVal) (xs ys : List JVal),
      compareJsonValues (jarr (x :: xs)) (jarr (y :: ys)) =
        if compareJsonValues x y = .val 0
        then compareJsonValues (jarr xs) (jarr ys)
        else compareJsonValues x y) := by
  have hnum : ∀ p q : Rat, compareJsonValues (jnum p) (jnum q)
      = .val (p - q) := by
    intro p q
    simp only [compareJsonValues, compareScalar, isNullish,
      Bool.and_self, Bool.false_eq_true, if_false, reduceIte]
  have hstr : ∀ s t : String, compareJsonValues (jstr s) (jstr t)
      = .val (strCmp s t) := by
    intro s t
    simp only [compareJsonValues, compareScalar, isNullish,
      Bool.and_self, Bool.false_eq_true, if_false, reduceIte]
  have hbool : ∀ x y : Bool, compareJsonValues (jbool x) (jbool y)
      = .val ((if x then (1 : Rat) else 0) - (if y then (1 : Rat) else 0)) := by
    intro x y
    simp only [compareJsonValues, compareScalar, isNullish,
      Bool.and_self, Bool.false_eq_true, if_false, reduceIte]
  refine ⟨compareJsonValues_antisym, ?_, ?_, ?_, ?_⟩
  · rintro p q r ⟨c1, hc1, hlt1⟩ ⟨c2, hc2, hlt2⟩
    rw [hnum] at hc1 hc2
    injection hc1 with hc1
    injection hc2 with hc2
    refine ⟨p - r, hnum p r, ?_⟩
    rw [← hc1] at hlt1
    rw [← hc2] at hlt2
    linarith
  · rintro s t u ⟨c1, hc1, hlt1⟩ ⟨c2, hc2, hlt2⟩
    rw [hstr] at hc1 hc2
    injection hc1 with hc1
    injection hc2 with hc2
    refine ⟨strCmp s u, hstr s u, ?_⟩
    rw [← hc1] at hlt1
    rw [← hc2] at hlt2
    exact strCmp_lt_trans s t u hlt1 hlt2
  · rintro x y z ⟨c1, hc1, hlt1⟩ ⟨c2, hc2, hlt2⟩
    rw [hbool] at hc1 hc2
    injection hc1 with hc1
    injection hc2 with hc2
    refine ⟨(if x then (1 : Rat) else 0) - (if z then (1 : Rat) else 0),
      hbool x z, ?_⟩
    rw [← hc1] at hlt1
    rw [← hc2] at hlt2
    cases x <;> cases y <;> cases z <;> norm_num at hlt1 hlt2 ⊢
  · intro x y xs ys
    simp only [compareJsonValues, compareJsonList]

/-- C7 witness: sign-antisymmetry at 1 versus "a", and numeric
transitivity at 1 < 2 < 3. -/
theorem C7_amended_order_properties_witness :
    compareJsonValues (jstr "a") (jnum 1) =
      negRes (compareJsonValues (jnum 1) (jstr "a")) ∧
    cmpLt (jnum 1) (jnum 3) := by
  constructor
  · exact C7_amended_order_properties.1 (jnum 1) (jstr "a")
  · refine C7_amended_order_properties.2.1 1 2 3 ⟨-1, ?_, by norm_num⟩
      ⟨-1, ?_, by norm_num⟩ <;>
      (simp only [compareJsonValues, compareScalar, isNullish,
        Bool.and_self, Bool.false_eq_true, if_false, reduceIte]
       norm_num)

theorem hasKey_iff_mem (l : List (String × JVal)) (k : String) :
    hasKey l k = true ↔ k ∈ keysOf l := by
  induction l with
  | nil => simp [hasKey, keysOf]
  | cons e rest ih =>
      obtain ⟨k2, v⟩ := e
      simp only [hasKey, keysOf, List.map_cons, List.mem_cons,
        Bool.or_eq_true, beq_iff_eq]
      rw [ih]
      simp [keysOf, eq_comm]

theorem mem_of_mem_canonFields (l : List (String × JVal))
    (e : String × JVal) (h : e ∈ canonFields l) : e ∈ l := by
  induction l using canonFields.induct with
  | case1 => simp [canonFields] at h
  | case2 k v rest ih =>
      simp only [canonFields, List.mem_cons] at h
      rcases h with h | h
      · simp [h]
      · exact List.mem_cons_of_mem _ (List.mem_of_mem_filter (ih h))

theorem canonFields_keys_nodup (l : List (String × JVal)) :
    (keysOf (canonFields l)).Nodup := by
  induction l using canonFields.induct with
  | case1 => simp [canonFields, keysOf]
  | case2 k v rest ih =>
      simp only [canonFields, keysOf, List.map_cons, List.nodup_cons]
      refine ⟨?_, ih⟩
      intro hk
      obtain ⟨⟨k2, v2⟩, hmem, hfst⟩ := List.mem_map.mp hk
      have h2 := mem_of_mem_canonFields _ _ hmem
      have h3 := List.of_mem_filter h2
      simp only at hfst
      simp [hfst] at h3

theorem oget_mem_of_hasKey (l : List (String × JVal)) (k : String)
    (h : hasKey l k = true) : (k, oget l k) ∈ l := by
  induction l with
  | nil => simp [hasKey] at h
  | cons e rest ih =>
      obtain ⟨k2, v⟩ := e
      by_cases hk : (k2 == k) = true
      · have hk2 : k2 = k := beq_iff_eq.mp hk
        simp [oget, hk, hk2]
      · rw [Bool.not_eq_true] at hk
        simp only [hasKey, hk, Bool.false_or] at h
        simp only [oget, hk, Bool.false_eq_true, if_false, reduceIte]
        exact List.mem_cons_of_mem _ (ih h)

theorem oget_eq_of_mem_nodup (l : List (String × JVal)) (k : String)
    (v : JVal) (hnd : (keysOf l).Nodup) (hm : (k, v) ∈ l) :
    oget l k = v := by
  induction l with
  | nil => simp at hm
  | cons e rest ih =>
      obtain ⟨k2, v2⟩ := e
      simp only [keysOf, List.map_cons, List.nodup_cons] at hnd
      rcases List.mem_cons.mp hm with h | h
      · obtain ⟨hk, hv⟩ := Prod.mk.injEq .. |>.mp h.symm
        simp [oget, hk, hv]
      · have hkmem : k ∈ keysOf rest :=
          List.mem_map.mpr ⟨(k, v), h, rfl⟩
        have hne : ¬((k2 == k) = true) := by
          intro hb
          rw [beq_iff_eq.mp hb] at hnd
          exact hnd.1 hkmem
        simp only [oget, hne, Bool.false_eq_true, if_false, reduceIte]
        exact ih hnd.2 h

theorem sizeOf_lt_of_mem_fields (l : List (String × JVal)) (k : String)
    (v : JVal) (h : (k, v) ∈ l) : sizeOf v < sizeOf l := by
  induction l with
  | nil => simp at h
  | cons e rest ih =>
      rcases List.mem_cons.mp h with h1 | h1
      · rw [← h1]
        simp only [List.cons.sizeOf_spec, Prod.mk.sizeOf_spec]
        omega
      · have := ih h1
        simp only [List.cons.sizeOf_spec]
        omega

theorem sizeOf_lt_of_mem_list (xs : List JVal) (x : JVal) (h : x ∈ xs) :
    sizeOf x < sizeOf xs := by
  induction xs with
  | nil => simp at h
  | cons e rest ih =>
      rcases List.mem_cons.mp h with h1 | h1
      · rw [h1]
        simp only [List.cons.sizeOf_spec]
        omega
      · have := ih h1
        simp only [List.cons.sizeOf_spec]
        omega

theorem deepEqualFields_iff (la lb : List (String × JVal)) :
    deepEqualFields la lb = true ↔
      ∀ e ∈ la, hasKey lb e.1 = true ∧ deepEqual e.2 (oget lb e.1) = true := by
  induction la with
  | nil => simp [deepEqualFields]
  | cons e rest ih =>
      obtain ⟨k, v⟩ := e
      rw [deepEqualFields]
      simp only [Bool.and_eq_true, List.mem_cons, ih]
      constructor
      · rintro ⟨⟨h1, h2⟩, h3⟩ e2 he2
        rcases he2 with he2 | he2
        · rw [he2]; exact ⟨h1, h2⟩
        · exact h3 e2 he2
      · intro h
        exact ⟨⟨(h (k, v) (Or.inl rfl)).1, (h (k, v) (Or.inl rfl)).2⟩,
          fun e2 he2 => h e2 (Or.inr he2)⟩

theorem nanFreeList_mem (xs : List JVal) (x : JVal)
    (hf : nanFreeList xs = true) (h : x ∈ xs) : nanFree x = true := by
  induction xs with
  | nil => simp at h
  | cons e rest ih =>
      rw [nanFreeList] at hf
      simp only [Bool.and_eq_true] at hf
      rcases List.mem_cons.mp h with h1 | h1
      · rw [h1]; exact hf.1
      · exact ih hf.2 h1

theorem nanFreeFields_mem (l : List (String × JVal)) (k : String) (v : JVal)
    (hf : nanFreeFields l = true) (h : (k, v) ∈ l) : nanFree v = true := by
  induction l with
  | nil => simp at h
  | cons e rest ih =>
      obtain ⟨k2, v2⟩ := e
      rw [nanFreeFields] at hf
      simp only [Bool.and_eq_true] at hf
      rcases List.mem_cons.mp h with h1 | h1
      · injection h1 with h1a h1b
        rw [h1b]; exact hf.1
      · exact ih hf.2 h1

theorem deepEqual_refl_aux : ∀ n : Nat,
    (∀ a : JVal, sizeOf a ≤ n → nanFree a = true → deepEqual a a = true) ∧
    (∀ xs : List JVal, sizeOf xs ≤ n → nanFreeList xs = true →
      deepEqualList xs xs = true) := by
  intro n
  induction n using Nat.strong_induction_on with
  | _ n ih =>
    constructor
    · intro a hsz hnf
      cases a with
      | jnull => simp [deepEqual, jsStrictEq]
      | jundef => simp [deepEqual, jsStrictEq]
      | jbool b => simp [deepEqual, jsStrictEq]
      | jnum q => simp [deepEqual, jsStrictEq]
      | jstr s => simp [deepEqual, jsStrictEq]
      | jnan => rw [nanFree] at hnf; exact absurd hnf (by simp)
      | jarr xs =>
          rw [nanFree] at hnf
          simp only [jarr.sizeOf_spec] at hsz
          have hlt : sizeOf xs < n := by omega
          rw [deepEqual]
          simp only [jsStrictEq, isNullish, typeOf, Bool.or_self,
            Bool.false_eq_true, if_false, bne_self_eq_false, reduceIte,
            beq_self_eq_true, Bool.true_and]
          exact (ih _ hlt).2 xs (le_refl _) hnf
      | jobj fs =>
          rw [nanFree] at hnf
          simp only [jobj.sizeOf_spec] at hsz
          rw [deepEqual]
          simp only [jsStrictEq, isNullish, typeOf, Bool.or_self,
            Bool.false_eq_true, if_false, bne_self_eq_false, reduceIte,
            beq_self_eq_true, Bool.true_and]
          rw [deepEqualFields_iff]
          intro e he
          obtain ⟨k, v⟩ := e
          have hmem : (k, v) ∈ fs := mem_of_mem_canonFields fs _ he
          have hkey : hasKey (canonFields fs) k = true := by
            rw [hasKey_iff_mem]
            exact List.mem_map.mpr ⟨(k, v), he, rfl⟩
          have hoget : oget (canonFields fs) k = v :=
            oget_eq_of_mem_nodup _ k v (canonFields_keys_nodup fs) he
          have hvlt : sizeOf v < n := by
            have := sizeOf_lt_of_mem_fields fs k v hmem
            omega
          have hvnf : nanFree v = true := nanFreeFields_mem fs k v hnf hmem
          exact ⟨hkey, by
            rw [hoget]
            exact (ih _ hvlt).1 v (le_refl _) hvnf⟩
    · intro xs hsz hnf
      cases xs with
      | nil => rw [deepEqualList]
      | cons x rest =>
          rw [nanFreeList] at hnf
          simp only [Bool.and_eq_true] at hnf
          simp only [List.cons.sizeOf_spec] at hsz
          have h1 : sizeOf x < n := by
            have := one_le_sizeOf_list rest
            omega
          have h2 : sizeOf rest < n := by
            have := one_le_sizeOf_jval x
            omega
          rw [deepEqualList]
          simp only [Bool.and_eq_true]
          exact ⟨(ih _ h1).1 x (le_refl _) hnf.1,
            (ih _ h2).2 rest (le_refl _) hnf.2⟩

theorem jsStrictEq_symm (a b : JVal) : jsStrictEq a b = jsStrictEq b a := by
  cases a <;> cases b <;> simp [jsStrictEq, eq_comm]

theorem typeOf_bne_symm (a b : JVal) :
    (typeOf b != typeOf a) = (typeOf a != typeOf b) := by
  cases a <;> cases b <;> rfl

theorem deepEqual_symm_imp_aux : ∀ n : Nat,
    (∀ a b : JVal, sizeOf a + sizeOf b ≤ n → deepEqual a b = true →
      deepEqual b a = true) ∧
    (∀ xs ys : List JVal, sizeOf xs + sizeOf ys ≤ n →
      deepEqualList xs ys = true → deepEqualList ys xs = true) := by
  intro n
  induction n using Nat.strong_induction_on with
  | _ n ih =>
    constructor
    · intro a b hsz h
      by_cases hse : jsStrictEq a b = true
      · have hse2 : jsStrictEq b a = true := by
          rw [← jsStrictEq_symm]; exact hse
        rw [deepEqual.eq_def, if_pos hse2]
      · by_cases hnull : (isNullish a || isNullish b) = true
        · rw [deepEqual.eq_def, if_neg hse, if_pos hnull] at h
          exact absurd h hse
        · by_cases hty : (typeOf a != typeOf b) = true
          · rw [deepEqual.eq_def, if_neg hse, if_neg hnull, if_pos hty] at h
            exact absurd h (by simp)
          · have hse2 : ¬(jsStrictEq b a = true) := by
              rw [← jsStrictEq_symm]; exact hse
            have hnull2 : ¬((isNullish b || isNullish a) = true) := by
              rw [Bool.or_comm]; exact hnull
            have hty2 : ¬((typeOf b != typeOf a) = true) := by
              rw [typeOf_bne_symm]; exact hty
            cases a <;> cases b <;>
              first
              | (rw [deepEqual.eq_def, if_neg hse, if_neg hnull,
                  if_neg hty] at h
                 simp at h
                 done)
              | skip
            next xs ys =>
              rw [deepEqual.eq_def, if_neg hse, if_neg hnull, if_neg hty] at h
              rw [deepEqual.eq_def, if_neg hse2, if_neg hnull2, if_neg hty2]
              simp only [Bool.and_eq_true, beq_iff_eq] at h
              simp only [Bool.and_eq_true, beq_iff_eq]
              simp only [jarr.sizeOf_spec] at hsz
              have hlt : sizeOf xs + sizeOf ys < n := by omega
              exact ⟨h.1.symm, (ih _ hlt).2 xs ys (le_refl _) h.2⟩
            next fa fb =>
              rw [deepEqual.eq_def, if_neg hse, if_neg hnull, if_neg hty] at h
              rw [deepEqual.eq_def, if_neg hse2, if_neg hnull2, if_neg hty2]
              simp only [Bool.and_eq_true, beq_iff_eq] at h
              simp only [Bool.and_eq_true, beq_iff_eq]
              obtain ⟨hlen, hfields⟩ := h
              simp only [jobj.sizeOf_spec] at hsz
              have hforward := (deepEqualFields_iff _ _).mp hfields
              have hnda := canonFields_keys_nodup fa
              have hndb := canonFields_keys_nodup fb
              have hsub : keysOf (canonFields fa) ⊆ keysOf (canonFields fb) := by
                intro k hk
                obtain ⟨e, he, hfst⟩ := List.mem_map.mp hk
                have h1 := (hforward e he).1
                rw [hasKey_iff_mem] at h1
                rw [← hfst]
                exact h1
              have hlenk : (keysOf (canonFields fb)).length ≤
                  (keysOf (canonFields fa)).length := by
                simp only [keysOf, List.length_map]
                omega
              have hperm : List.Perm (keysOf (canonFields fa))
                  (keysOf (canonFields fb)) :=
                (List.subperm_of_subset hnda hsub).perm_of_length_le hlenk
              refine ⟨hlen.symm, ?_⟩
              rw [deepEqualFields_iff]
              rintro ⟨k, w⟩ he
              have hkmemb : k ∈ keysOf (canonFields fb) :=
                List.mem_map.mpr ⟨(k, w), he, rfl⟩
              have hkmema : k ∈ keysOf (canonFields fa) :=
                hperm.mem_iff.mpr hkmemb
              have hhasa : hasKey (canonFields fa) k = true :=
                (hasKey_iff_mem _ _).mpr hkmema
              have hmema : (k, oget (canonFields fa) k) ∈ canonFields fa :=
                oget_mem_of_hasKey _ k hhasa
              have hfw := hforward (k, oget (canonFields fa) k) hmema
              have hogetb : oget (canonFields fb) k = w :=
                oget_eq_of_mem_nodup _ k w hndb he
              have hde : deepEqual (oget (canonFields fa) k) w = true := by
                rw [← hogetb]
                exact hfw.2
              have hsza : sizeOf (oget (canonFields fa) k) < sizeOf fa :=
                sizeOf_lt_of_mem_fields fa k _
                  (mem_of_mem_canonFields fa _ hmema)
              have hszb : sizeOf w < sizeOf fb :=
                sizeOf_lt_of_mem_fields fb k w
                  (mem_of_mem_canonFields fb _ he)
              have hm : sizeOf (oget (canonFields fa) k) + sizeOf w < n := by
                omega
              exact ⟨hhasa, (ih _ hm).1 _ w (le_refl _) hde⟩
    · intro xs ys hsz h
      cases xs with
      | nil =>
          cases ys with
          | nil => exact h
          | cons y ys2 => rw [deepEqualList.eq_def] at h; simp at h
      | cons x xs2 =>
          cases ys with
          | nil => rw [deepEqualList.eq_def] at h; simp at h
          | cons y ys2 =>
              rw [deepEqualList] at h ⊢
              simp only [Bool.and_eq_true] at h ⊢
              simp only [List.cons.sizeOf_spec] at hsz
              have h1 : sizeOf x + sizeOf y < n := by
                have := one_le_sizeOf_list xs2
                have := one_le_sizeOf_list ys2
                omega
              have h2 : sizeOf xs2 + sizeOf ys2 < n := by
                have := one_le_sizeOf_jval x
                have := one_le_sizeOf_jval y
                omega
              exact ⟨(ih _ h1).1 x y (le_refl _) h.1,
                (ih _ h2).2 xs2 ys2 (le_refl _) h.2⟩

/-- C8 counterexample: `deepEqual` is not reflexive on the whole value
domain — `deepEqual(NaN, NaN)` is `false` (`NaN === NaN` fails, both are
numbers, and no structural branch applies). -/
theorem C8_nan_not_reflexive_counterexample :
    deepEqual jnan jnan = false := by
  simp [deepEqual, jsStrictEq, isNullish, typeOf]

/-- C8 amended: `deepEqual(x, x)` is true for every value that contains no
`NaN`, and `deepEqual` is symmetric on all pairs. -/
theorem C8_deepEqual_refl_symm :
    (∀ x : JVal, nanFree x = true → deepEqual x x = true) ∧
    (∀ a b : JVal, deepEqual a b = deepEqual b a) := by
  constructor
  · intro x hx
    exact (deepEqual_refl_aux (sizeOf x)).1 x (le_refl _) hx
  · intro a b
    cases h1 : deepEqual a b <;> cases h2 : deepEqual b a <;> try rfl
    · have := (deepEqual_symm_imp_aux (sizeOf b + sizeOf a)).1 b a
        (le_refl _) h2
      rw [h1] at this
      exact this
    · have := (deepEqual_symm_imp_aux (sizeOf a + sizeOf b)).1 a b
        (le_refl _) h1
      rw [this] at h2
      exact h2

/-- C8 witness: reflexivity at a concrete NaN-free value, and symmetry at
a concrete mixed pair. -/
theorem C8_deepEqual_refl_symm_witness :
    deepEqual (jarr [jnum 1, jstr "a"]) (jarr [jnum 1, jstr "a"]) = true ∧
    deepEqual (jstr "x") (jnum 1) = deepEqual (jnum 1) (jstr "x") := by
  constructor
  · exact C8_deepEqual_refl_symm.1 (jarr [jnum 1, jstr "a"])
      (by simp [nanFree, nanFreeList])
  · exact C8_deepEqual_refl_symm.2 (jstr "x") (jnum 1)
